import Mathlib

/-!
Shallow embedding of src/Chapter04/02_frozenlake_naive.py: the cross-entropy
method training script for FrozenLake.  Real arithmetic of the script
(numpy float64) is modelled by exact rationals.  The environment and the
policy network are external collaborators; the generator is modelled as a
fold over the stream of records produced by the env/net interaction, each
record carrying the observation fed to the policy, the sampled action and
the reward / done flag returned by env.step.
-/

namespace FrozenLake

/-- Hyperparameter BATCH_SIZE from the script. -/
def BATCH_SIZE : ℕ := 16

/-- Hyperparameter PERCENTILE from the script. -/
def PERCENTILE : ℚ := 70

/-- EpisodeStep namedtuple: the observation (a one-hot float vector, modelled
as a list of rationals) and the sampled action. -/
structure EpisodeStep where
  observation : List ℚ
  action : ℕ
deriving DecidableEq

/-- Episode namedtuple: cumulative reward and the ordered list of steps. -/
structure Episode where
  reward : ℚ
  steps : List EpisodeStep
deriving DecidableEq

/-- np.percentile with the default linear interpolation method: for the
ascending sort s of xs with n = length s, the virtual index is
h = (n-1)*q/100 and the result interpolates between s[floor h] and the next
entry (clipped to the last index). -/
def npPercentile (xs : List ℚ) (q : ℚ) : ℚ :=
  let s := xs.insertionSort (· ≤ ·)
  let n := s.length
  let h : ℚ := ((n : ℚ) - 1) * (q / 100)
  let i : ℕ := (⌊h⌋).toNat
  let lo := s.getD i 0
  let hi := s.getD (min (i + 1) (n - 1)) 0
  lo + (h - (i : ℚ)) * (hi - lo)

/-- np.mean: arithmetic mean of a list. -/
def npMean (xs : List ℚ) : ℚ := xs.sum / (xs.length : ℚ)

/-- Result quadruple of filter_batch. -/
structure FilterResult where
  train_obs : List (List ℚ)
  train_act : List ℕ
  reward_bound : ℚ
  reward_mean : ℚ
deriving DecidableEq

/-- filter_batch from the script: compute the percentile bound and the mean
of the episode rewards, then walk the batch in order, skipping episodes with
reward < bound and extending the training lists with the steps of the
remaining episodes. -/
def filter_batch (batch : List Episode) (percentile : ℚ) : FilterResult :=
  let rewards := batch.map (fun e => e.reward)
  let reward_bound := npPercentile rewards percentile
  let reward_mean := npMean rewards
  let tr := batch.foldl
    (fun (acc : List (List ℚ) × List ℕ) ep =>
      if ep.reward < reward_bound then acc
      else (acc.1 ++ ep.steps.map (fun s => s.observation),
            acc.2 ++ ep.steps.map (fun s => s.action)))
    ([], [])
  ⟨tr.1, tr.2, reward_bound, reward_mean⟩

/-- DiscreteOneHotWrapper.observation: start from a copy of the Box space's
lower bound (the all-zero vector of length n) and set entry obs to 1.0. -/
def DiscreteOneHotWrapper.observation (n : ℕ) (obs : ℕ) : List ℚ :=
  (List.replicate n (0 : ℚ)).set obs 1

/-- One record of the env/net interaction inside iterate_batches: the
observation fed to the net, the action sampled from the net's probabilities,
and the reward and done flag returned by env.step(action). -/
structure EnvStep where
  observation : List ℚ
  action : ℕ
  reward : ℚ
  is_done : Bool
deriving DecidableEq

/-- The EpisodeStep recorded for an interaction record. -/
def EnvStep.toStep (r : EnvStep) : EpisodeStep := ⟨r.observation, r.action⟩

/-- The mutable state of the iterate_batches generator: the batch under
construction, the running episode reward and steps, and (to model yield) the
list of batches yielded so far. -/
structure GenState where
  batch : List Episode
  episode_reward : ℚ
  episode_steps : List EpisodeStep
  yielded : List (List Episode)
deriving DecidableEq

/-- Initial generator state (batch = [], episode_reward = 0.0,
episode_steps = []). -/
def genInit : GenState := ⟨[], 0, [], []⟩

/-- One iteration of the iterate_batches loop body on an interaction record:
accumulate the reward, append the step; when the done flag is set, close the
episode into the batch, reset the episode accumulators, and yield the batch
exactly when it has reached batch_size. -/
def genStep (batch_size : ℕ) (s : GenState) (r : EnvStep) : GenState :=
  let episode_reward := s.episode_reward + r.reward
  let episode_steps := s.episode_steps ++ [r.toStep]
  if r.is_done then
    let b := s.batch ++ [⟨episode_reward, episode_steps⟩]
    if b.length = batch_size then
      ⟨[], 0, [], s.yielded ++ [b]⟩
    else
      ⟨b, 0, [], s.yielded⟩
  else
    ⟨s.batch, episode_reward, episode_steps, s.yielded⟩

/-- Run the iterate_batches loop over a finite prefix of the interaction
stream. -/
def genRun (batch_size : ℕ) (recs : List EnvStep) : GenState :=
  recs.foldl (genStep batch_size) genInit

/-- The training loop of the script's main section: still running after k
iterations means no batch among the first k had mean reward exceeding 0.8
(the loop breaks at the first batch whose filter_batch mean exceeds 0.8). -/
def trainLoopRunning (batches : ℕ → List Episode) : ℕ → Bool
  | 0 => true
  | k + 1 =>
    trainLoopRunning batches k &&
      !(decide ((4 : ℚ) / 5 < (filter_batch (batches k) PERCENTILE).reward_mean))

/-- The episodes retained by filter_batch: those whose reward is at least the
percentile bound, in batch order. -/
def retainedEpisodes (batch : List Episode) (percentile : ℚ) : List Episode :=
  batch.filter
    (fun e => decide (npPercentile (batch.map (fun e => e.reward)) percentile ≤ e.reward))

/-- The fold inside filter_batch extends the accumulators with exactly the
steps of the episodes whose reward clears the bound, in order. -/
lemma filterFold_eq (bound : ℚ) (batch : List Episode)
    (o : List (List ℚ)) (a : List ℕ) :
    batch.foldl
      (fun (acc : List (List ℚ) × List ℕ) ep =>
        if ep.reward < bound then acc
        else (acc.1 ++ ep.steps.map (fun s => s.observation),
              acc.2 ++ ep.steps.map (fun s => s.action))) (o, a)
    = (o ++ ((batch.filter (fun e => decide (bound ≤ e.reward))).map
          (fun e => e.steps.map (fun s => s.observation))).flatten,
       a ++ ((batch.filter (fun e => decide (bound ≤ e.reward))).map
          (fun e => e.steps.map (fun s => s.action))).flatten) := by
  induction batch generalizing o a with
  | nil => simp
  | cons e t ih =>
    by_cases h : e.reward < bound
    · have hd : (decide (bound ≤ e.reward)) = false := by
        simp [not_le.mpr h]
      simp [List.foldl_cons, List.filter_cons, hd, if_pos h, ih]
    · have hd : (decide (bound ≤ e.reward)) = true := by
        simp [not_lt.mp h]
      simp [List.foldl_cons, List.filter_cons, hd, if_neg h, ih]

/-- filter_batch, written in terms of the retained episode list. -/
lemma filter_batch_eq (batch : List Episode) (p : ℚ) :
    filter_batch batch p =
      ⟨((retainedEpisodes batch p).map
          (fun e => e.steps.map (fun s => s.observation))).flatten,
        ((retainedEpisodes batch p).map
          (fun e => e.steps.map (fun s => s.action))).flatten,
        npPercentile (batch.map (fun e => e.reward)) p,
        npMean (batch.map (fun e => e.reward))⟩ := by
  unfold filter_batch retainedEpisodes
  simp [filterFold_eq]

/-- npPercentile on a nonempty list with 0 ≤ q ≤ 100 interpolates between two
entries of the ascending sort, the first no later than the second, with an
interpolation coefficient in [0, 1]. -/
lemma npPercentile_core (xs : List ℚ) (q : ℚ) (hne : xs ≠ [])
    (hq0 : 0 ≤ q) (hq100 : q ≤ 100) :
    ∃ i j : Fin (xs.insertionSort (· ≤ ·)).length, i ≤ j ∧ ∃ t : ℚ, 0 ≤ t ∧ t ≤ 1 ∧
      npPercentile xs q
        = (xs.insertionSort (· ≤ ·)).get i
          + t * ((xs.insertionSort (· ≤ ·)).get j - (xs.insertionSort (· ≤ ·)).get i) := by
  have hlen : (xs.insertionSort (· ≤ ·)).length = xs.length :=
    (List.perm_insertionSort _ xs).length_eq
  have hn : 1 ≤ (xs.insertionSort (· ≤ ·)).length := by
    rw [hlen]
    exact List.length_pos.mpr hne
  have hn1 : (1 : ℚ) ≤ ((xs.insertionSort (· ≤ ·)).length : ℚ) := by exact_mod_cast hn
  have hv0 : 0 ≤ (((xs.insertionSort (· ≤ ·)).length : ℚ) - 1) * (q / 100) := by
    apply mul_nonneg (by linarith) (by positivity)
  have hvle : (((xs.insertionSort (· ≤ ·)).length : ℚ) - 1) * (q / 100)
      ≤ ((xs.insertionSort (· ≤ ·)).length : ℚ) - 1 := by
    have h1 : q / 100 ≤ 1 := by linarith
    calc (((xs.insertionSort (· ≤ ·)).length : ℚ) - 1) * (q / 100)
        ≤ (((xs.insertionSort (· ≤ ·)).length : ℚ) - 1) * 1 :=
          mul_le_mul_of_nonneg_left h1 (by linarith)
      _ = ((xs.insertionSort (· ≤ ·)).length : ℚ) - 1 := mul_one _
  have hfl0 : 0 ≤ ⌊(((xs.insertionSort (· ≤ ·)).length : ℚ) - 1) * (q / 100)⌋ :=
    Int.floor_nonneg.mpr hv0
  have hicast : ((⌊(((xs.insertionSort (· ≤ ·)).length : ℚ) - 1) * (q / 100)⌋.toNat : ℕ) : ℚ)
      = ((⌊(((xs.insertionSort (· ≤ ·)).length : ℚ) - 1) * (q / 100)⌋ : ℤ) : ℚ) := by
    exact_mod_cast congrArg (fun z : ℤ => (z : ℚ)) (Int.toNat_of_nonneg hfl0)
  have hile : ((⌊(((xs.insertionSort (· ≤ ·)).length : ℚ) - 1) * (q / 100)⌋.toNat : ℕ) : ℚ)
      ≤ (((xs.insertionSort (· ≤ ·)).length : ℚ) - 1) * (q / 100) := by
    rw [hicast]; exact Int.floor_le _
  have hilt : (((xs.insertionSort (· ≤ ·)).length : ℚ) - 1) * (q / 100)
      < ((⌊(((xs.insertionSort (· ≤ ·)).length : ℚ) - 1) * (q / 100)⌋.toNat : ℕ) : ℚ) + 1 := by
    rw [hicast]; exact Int.lt_floor_add_one _
  have hin : ⌊(((xs.insertionSort (· ≤ ·)).length : ℚ) - 1) * (q / 100)⌋.toNat
      < (xs.insertionSort (· ≤ ·)).length := by
    have hi1 : ((⌊(((xs.insertionSort (· ≤ ·)).length : ℚ) - 1) * (q / 100)⌋.toNat : ℕ) : ℚ)
        < ((xs.insertionSort (· ≤ ·)).length : ℚ) := by linarith
    exact_mod_cast hi1
  have hjn : min (⌊(((xs.insertionSort (· ≤ ·)).length : ℚ) - 1) * (q / 100)⌋.toNat + 1)
      ((xs.insertionSort (· ≤ ·)).length - 1) < (xs.insertionSort (· ≤ ·)).length :=
    Nat.lt_of_le_of_lt (Nat.min_le_right _ _) (Nat.sub_lt (by omega) Nat.one_pos)
  have hij : ⌊(((xs.insertionSort (· ≤ ·)).length : ℚ) - 1) * (q / 100)⌋.toNat
      ≤ min (⌊(((xs.insertionSort (· ≤ ·)).length : ℚ) - 1) * (q / 100)⌋.toNat + 1)
        ((xs.insertionSort (· ≤ ·)).length - 1) :=
    le_min (Nat.le_succ _) (by omega)
  refine ⟨⟨_, hin⟩, ⟨_, hjn⟩, hij,
    (((xs.insertionSort (· ≤ ·)).length : ℚ) - 1) * (q / 100)
      - ((⌊(((xs.insertionSort (· ≤ ·)).length : ℚ) - 1) * (q / 100)⌋.toNat : ℕ) : ℚ),
    by linarith, by linarith, ?_⟩
  show npPercentile xs q = _
  unfold npPercentile
  simp only [List.get_eq_getElem]
  rw [List.getD_eq_getElem _ _ hin, List.getD_eq_getElem _ _ hjn]

/-- On a nonempty list with 0 ≤ q ≤ 100, npPercentile never exceeds some
member of the list. -/
lemma npPercentile_le_mem (xs : List ℚ) (q : ℚ) (hne : xs ≠ [])
    (hq0 : 0 ≤ q) (hq100 : q ≤ 100) :
    ∃ m ∈ xs, npPercentile xs q ≤ m := by
  obtain ⟨i, j, hij, t, ht0, ht1, heq⟩ := npPercentile_core xs q hne hq0 hq100
  have hsorted : (xs.insertionSort (· ≤ ·)).Sorted (· ≤ ·) :=
    List.sorted_insertionSort _ xs
  have hlohi : (xs.insertionSort (· ≤ ·)).get i ≤ (xs.insertionSort (· ≤ ·)).get j :=
    hsorted.rel_get_of_le hij
  refine ⟨(xs.insertionSort (· ≤ ·)).get j,
    (List.perm_insertionSort _ xs).mem_iff.mp (List.get_mem _ j.1 j.2), ?_⟩
  rw [heq]
  have hmul := mul_le_mul_of_nonneg_right ht1 (sub_nonneg.mpr hlohi)
  linarith

/-- On a nonempty constant list with 0 ≤ q ≤ 100, npPercentile returns the
constant. -/
lemma npPercentile_const (xs : List ℚ) (q r : ℚ) (hne : xs ≠ [])
    (hq0 : 0 ≤ q) (hq100 : q ≤ 100) (hall : ∀ x ∈ xs, x = r) :
    npPercentile xs q = r := by
  obtain ⟨i, j, hij, t, ht0, ht1, heq⟩ := npPercentile_core xs q hne hq0 hq100
  have hi : (xs.insertionSort (· ≤ ·)).get i = r :=
    hall _ ((List.perm_insertionSort _ xs).mem_iff.mp (List.get_mem _ i.1 i.2))
  have hj : (xs.insertionSort (· ≤ ·)).get j = r :=
    hall _ ((List.perm_insertionSort _ xs).mem_iff.mp (List.get_mem _ j.1 j.2))
  rw [heq, hi, hj]
  ring

/-- The three possible outcomes of one generator iteration: continue the
current episode, close an episode into the batch, or close an episode and
yield the full batch (which then has exactly batch_size episodes). -/
lemma genStep_cases (bs : ℕ) (s : GenState) (r : EnvStep) :
    (∃ er es, genStep bs s r = ⟨s.batch, er, es, s.yielded⟩)
    ∨ (∃ e, genStep bs s r = ⟨s.batch ++ [e], 0, [], s.yielded⟩ ∧ e.steps ≠ [])
    ∨ (∃ e, genStep bs s r = ⟨[], 0, [], s.yielded ++ [s.batch ++ [e]]⟩
        ∧ (s.batch ++ [e]).length = bs ∧ e.steps ≠ []) := by
  simp only [genStep]
  split
  · split
    · right; right
      exact ⟨_, rfl, by assumption, by simp⟩
    · right; left
      exact ⟨_, rfl, by simp⟩
  · left
    exact ⟨_, _, rfl⟩

/-- Folding the generator body preserves the invariant that every yielded
batch has exactly batch_size episodes. -/
lemma genFoldl_yield_length (bs : ℕ) (recs : List EnvStep) (s : GenState)
    (hInv : ∀ b ∈ s.yielded, b.length = bs) :
    ∀ b ∈ (recs.foldl (genStep bs) s).yielded, b.length = bs := by
  induction recs generalizing s with
  | nil => exact hInv
  | cons r t ih =>
    rw [List.foldl_cons]
    rcases genStep_cases bs s r with ⟨er, es, hEq⟩ | ⟨e, hEq, he⟩ | ⟨e, hEq, hlen, he⟩ <;>
      rw [hEq]
    · exact ih _ hInv
    · exact ih _ hInv
    · refine ih _ ?_
      intro b hb
      rcases List.mem_append.mp hb with h | h
      · exact hInv b h
      · rw [List.mem_singleton.mp h]
        exact hlen

/-- Folding the generator body preserves the invariant that every episode in
the yielded batches or in the batch under construction has at least one
step. -/
lemma genFoldl_steps_ne_nil (bs : ℕ) (recs : List EnvStep) (s : GenState)
    (hY : ∀ b ∈ s.yielded, ∀ e ∈ b, e.steps ≠ [])
    (hB : ∀ e ∈ s.batch, e.steps ≠ []) :
    (∀ b ∈ (recs.foldl (genStep bs) s).yielded, ∀ e ∈ b, e.steps ≠ [])
    ∧ ∀ e ∈ (recs.foldl (genStep bs) s).batch, e.steps ≠ [] := by
  induction recs generalizing s with
  | nil => exact ⟨hY, hB⟩
  | cons r t ih =>
    rw [List.foldl_cons]
    rcases genStep_cases bs s r with ⟨er, es, hEq⟩ | ⟨e, hEq, he⟩ | ⟨e, hEq, hlen, he⟩ <;>
      rw [hEq]
    · exact ih _ hY hB
    · refine ih _ hY ?_
      intro x hx
      rcases List.mem_append.mp hx with h | h
      · exact hB x h
      · rw [List.mem_singleton.mp h]
        exact he
    · refine ih _ ?_ ?_
      · intro b hb x hx
        rcases List.mem_append.mp hb with h | h
        · exact hY b h x hx
        · rw [List.mem_singleton.mp h] at hx
          rcases List.mem_append.mp hx with h2 | h2
          · exact hB x h2
          · rw [List.mem_singleton.mp h2]
            exact he
      · intro x hx
        exact absurd hx (List.not_mem_nil x)

/-- Modelled from the spec ("Episode: one full run of the environment from
reset to termination"): split the interaction stream into the maximal
segments each ending at a record whose done flag is set; the first component
lists the completed segments in order, the second is the trailing unfinished
segment.  pend is the part of the current segment already consumed. -/
def segsAux : List EnvStep → List EnvStep → List (List EnvStep) × List EnvStep
  | pend, [] => ([], pend)
  | pend, r :: rs =>
    if r.is_done then
      ((pend ++ [r]) :: (segsAux [] rs).1, (segsAux [] rs).2)
    else
      segsAux (pend ++ [r]) rs

/-- The Episode a full run describes: reward is the sum of the rewards of the
run's records and the steps are its (observation, action) pairs in order. -/
def episodeOfSeg (g : List EnvStep) : Episode :=
  ⟨(g.map (fun r => r.reward)).sum, g.map EnvStep.toStep⟩

/-- Unfolding segsAux on a record closing a segment. -/
lemma segsAux_cons_done (pend : List EnvStep) (r : EnvStep) (rs : List EnvStep)
    (h : r.is_done = true) :
    segsAux pend (r :: rs)
      = ((pend ++ [r]) :: (segsAux [] rs).1, (segsAux [] rs).2) := by
  simp [segsAux, h]

/-- Unfolding segsAux on a record continuing the current segment. -/
lemma segsAux_cons_not_done (pend : List EnvStep) (r : EnvStep)
    (rs : List EnvStep) (h : r.is_done = false) :
    segsAux pend (r :: rs) = segsAux (pend ++ [r]) rs := by
  simp [segsAux, h]

/-- The segments produced by segsAux concatenate back to the whole stream. -/
lemma segsAux_flatten (recs pend : List EnvStep) :
    ((segsAux pend recs).1).flatten ++ (segsAux pend recs).2 = pend ++ recs := by
  induction recs generalizing pend with
  | nil => simp [segsAux]
  | cons r rs ih =>
    rcases Bool.eq_false_or_eq_true r.is_done with h | h
    · rw [segsAux_cons_done pend r rs h]
      simp only [List.flatten_cons]
      rw [List.append_assoc, ih []]
      simp
    · rw [segsAux_cons_not_done pend r rs h, ih (pend ++ [r])]
      simp

/-- Each completed segment consists of records with the done flag clear
followed by one final record with the done flag set, and the trailing
unfinished segment has no done record. -/
lemma segsAux_shape (recs pend : List EnvStep)
    (hpend : ∀ x ∈ pend, x.is_done = false) :
    (∀ g ∈ (segsAux pend recs).1,
        ∃ gp r, g = gp ++ [r] ∧ r.is_done = true ∧ ∀ x ∈ gp, x.is_done = false)
    ∧ ∀ x ∈ (segsAux pend recs).2, x.is_done = false := by
  induction recs generalizing pend with
  | nil =>
    refine ⟨?_, ?_⟩
    · intro g hg
      simp [segsAux] at hg
    · simpa [segsAux] using hpend
  | cons r rs ih =>
    rcases Bool.eq_false_or_eq_true r.is_done with h | h
    · rw [segsAux_cons_done pend r rs h]
      obtain ⟨ih1, ih2⟩ := ih [] (by intro x hx; simp at hx)
      refine ⟨?_, ih2⟩
      intro g hg
      rcases List.mem_cons.mp hg with hg | hg
      · exact ⟨pend, r, hg, h, hpend⟩
      · exact ih1 g hg
    · rw [segsAux_cons_not_done pend r rs h]
      refine ih (pend ++ [r]) ?_
      intro x hx
      rcases List.mem_append.mp hx with hx | hx
      · exact hpend x hx
      · rw [List.mem_singleton.mp hx]
        exact h

/-- genStep on a record with the done flag clear only extends the running
episode accumulators. -/
lemma genStep_not_done (bs : ℕ) (s : GenState) (r : EnvStep)
    (h : r.is_done = false) :
    genStep bs s r = ⟨s.batch, s.episode_reward + r.reward,
      s.episode_steps ++ [r.toStep], s.yielded⟩ := by
  simp [genStep, h]

/-- genStep on a record with the done flag set resets the episode
accumulators and adds the closed episode at the end of the yielded-or-pending
episode sequence. -/
lemma genStep_done (bs : ℕ) (s : GenState) (r : EnvStep)
    (h : r.is_done = true) :
    (genStep bs s r).episode_reward = 0 ∧ (genStep bs s r).episode_steps = []
    ∧ (genStep bs s r).yielded.flatten ++ (genStep bs s r).batch
        = (s.yielded.flatten ++ s.batch)
          ++ [⟨s.episode_reward + r.reward, s.episode_steps ++ [r.toStep]⟩] := by
  simp only [genStep, h, if_true]
  split
  · simp
  · simp

/-- Refinement of the generator by the segmentation of the stream: after any
prefix of the interaction stream, the episodes already yielded followed by
the batch under construction are exactly the Episodes of the completed
segments, in order, and the running accumulators describe the unfinished
trailing segment. -/
lemma genFoldl_segs (bs : ℕ) (recs : List EnvStep) (s : GenState)
    (pend : List EnvStep)
    (hrew : s.episode_reward = (pend.map (fun r => r.reward)).sum)
    (hsteps : s.episode_steps = pend.map EnvStep.toStep) :
    (recs.foldl (genStep bs) s).yielded.flatten ++ (recs.foldl (genStep bs) s).batch
        = (s.yielded.flatten ++ s.batch) ++ ((segsAux pend recs).1).map episodeOfSeg
    ∧ (recs.foldl (genStep bs) s).episode_reward
        = (((segsAux pend recs).2).map (fun r => r.reward)).sum
    ∧ (recs.foldl (genStep bs) s).episode_steps
        = ((segsAux pend recs).2).map EnvStep.toStep := by
  induction recs generalizing s pend with
  | nil => simp [segsAux, hrew, hsteps]
  | cons r rs ih =>
    rw [List.foldl_cons]
    rcases Bool.eq_false_or_eq_true r.is_done with h | h
    · obtain ⟨h1, h2, h3⟩ := genStep_done bs s r h
      have hep : (⟨s.episode_reward + r.reward, s.episode_steps ++ [r.toStep]⟩ : Episode)
          = episodeOfSeg (pend ++ [r]) := by
        simp [episodeOfSeg, hrew, hsteps]
      obtain ⟨c1, c2, c3⟩ := ih (genStep bs s r) [] (by simp [h1]) (by simp [h2])
      rw [segsAux_cons_done pend r rs h]
      refine ⟨?_, c2, c3⟩
      rw [c1, h3, hep]
      simp [List.append_assoc]
    · rw [genStep_not_done bs s r h, segsAux_cons_not_done pend r rs h]
      exact ih _ (pend ++ [r]) (by simp [hrew]) (by simp [hsteps])

/-- C1: for every batch and percentile, filter_batch retains exactly the
episodes whose total reward is at least the percentile value computed from
the batch's own reward distribution, and returns that percentile value as
reward_bound and the mean of the batch's rewards as reward_mean. -/
theorem filter_batch_spec (batch : List Episode) (p : ℚ) :
    (filter_batch batch p).reward_bound
        = npPercentile (batch.map (fun e => e.reward)) p
    ∧ (filter_batch batch p).reward_mean
        = (batch.map (fun e => e.reward)).sum / (batch.length : ℚ)
    ∧ (filter_batch batch p).train_obs
        = ((retainedEpisodes batch p).map
            (fun e => e.steps.map (fun s => s.observation))).flatten
    ∧ (filter_batch batch p).train_act
        = ((retainedEpisodes batch p).map
            (fun e => e.steps.map (fun s => s.action))).flatten := by
  rw [filter_batch_eq batch p]
  refine ⟨rfl, ?_, rfl, rfl⟩
  simp [npMean]

/-- C2: for every batch, the training observations and actions returned by
filter_batch are the projections of the concatenation of the retained
episodes' step lists in episode order, preserving within-episode step
order. -/
theorem filter_batch_concat_in_order (batch : List Episode) (p : ℚ) :
    (filter_batch batch p).train_obs
        = (((retainedEpisodes batch p).map (fun e => e.steps)).flatten).map
            (fun s => s.observation)
    ∧ (filter_batch batch p).train_act
        = (((retainedEpisodes batch p).map (fun e => e.steps)).flatten).map
            (fun s => s.action) := by
  rw [filter_batch_eq batch p]
  constructor <;> rw [List.map_flatten, List.map_map] <;> rfl

/-- C4: for every state index i valid for the discrete observation space of
size n, the one-hot encoding produces a vector of length n whose entry at
position i is 1.0, whose entry at every other position is 0.0, and which has
exactly one entry equal to 1.0. -/
theorem one_hot_spec (n i : ℕ) (hi : i < n) :
    (DiscreteOneHotWrapper.observation n i).length = n
    ∧ (∀ j, j < n → (DiscreteOneHotWrapper.observation n i).getD j 0
        = if j = i then 1 else 0)
    ∧ (DiscreteOneHotWrapper.observation n i).count 1 = 1 := by
  unfold DiscreteOneHotWrapper.observation
  refine ⟨by simp, ?_, ?_⟩
  · intro j hj
    have hj2 : j < ((List.replicate n (0 : ℚ)).set i 1).length := by simp [hj]
    rw [List.getD_eq_getElem _ _ hj2, List.getElem_set]
    by_cases hij : i = j
    · simp [hij]
    · rw [if_neg hij, if_neg (fun h => hij h.symm), List.getElem_replicate]
  · rw [List.set_eq_take_append_cons_drop, if_pos (by simp [hi])]
    rw [List.take_replicate, List.drop_replicate]
    rw [List.count_append, List.count_cons, List.count_replicate,
      List.count_replicate]
    norm_num

/-- Witness for C4 at n = 4, i = 2. -/
theorem one_hot_spec_witness :
    (DiscreteOneHotWrapper.observation 4 2).count 1 = 1 :=
  (one_hot_spec 4 2 (by norm_num)).2.2

/-- C6: for every non-empty batch whose episode rewards all equal r and every
percentile in [0, 100], the reward_bound returned by filter_batch equals r,
and hence every episode in the batch is retained. -/
theorem filter_batch_constant_rewards (batch : List Episode) (r p : ℚ)
    (hne : batch ≠ []) (hall : ∀ e ∈ batch, e.reward = r)
    (hp0 : 0 ≤ p) (hp100 : p ≤ 100) :
    (filter_batch batch p).reward_bound = r
    ∧ retainedEpisodes batch p = batch := by
  have hbound : npPercentile (batch.map (fun e => e.reward)) p = r := by
    apply npPercentile_const _ _ _ (by simpa using hne) hp0 hp100
    intro x hx
    obtain ⟨e, he, rfl⟩ := List.mem_map.mp hx
    exact hall e he
  constructor
  · rw [filter_batch_eq]
    exact hbound
  · unfold retainedEpisodes
    rw [List.filter_eq_self]
    intro e he
    simp [hbound, hall e he]

/-- Witness for C6: a single episode of reward 2 with percentile 70. -/
theorem filter_batch_constant_rewards_witness :
    (filter_batch [⟨2, []⟩] 70).reward_bound = 2
    ∧ retainedEpisodes [⟨2, []⟩] 70 = [⟨2, []⟩] :=
  filter_batch_constant_rewards [⟨2, []⟩] 2 70 (by simp)
    (by intro e he; rw [List.mem_singleton.mp he]) (by norm_num) (by norm_num)

/-- C7: for every batch and percentile, the number of training
(observation, action) pairs returned by filter_batch is at most the total
number of steps across all episodes in the batch. -/
theorem filter_batch_pairs_le_total (batch : List Episode) (p : ℚ) :
    (filter_batch batch p).train_obs.length
        ≤ (batch.map (fun e => e.steps.length)).sum
    ∧ (filter_batch batch p).train_act.length
        ≤ (batch.map (fun e => e.steps.length)).sum := by
  rw [filter_batch_eq]
  have hsub : ((retainedEpisodes batch p).map (fun e => e.steps.length)).Sublist
      (batch.map (fun e => e.steps.length)) :=
    (List.filter_sublist batch).map _
  have hsum := hsub.sum_le_sum (by intro a ha; exact Nat.zero_le a)
  constructor <;>
  · rw [List.length_flatten]
    simpa [List.map_map, Function.comp_def, List.length_map] using hsum

/-- C3: every batch yielded by iterate_batches contains exactly batch_size
episodes; a batch is never yielded before reaching that size. -/
theorem iterate_batches_yield_size (bs : ℕ) (recs : List EnvStep) :
    ∀ b ∈ (genRun bs recs).yielded, b.length = bs :=
  genFoldl_yield_length bs recs genInit (by intro b hb; simp [genInit] at hb)

/-- Witness for C3: one done record with batch_size 1 yields a batch of one
episode. -/
theorem iterate_batches_yield_size_witness :
    ([(⟨1, [⟨[1], 0⟩]⟩ : Episode)] : List Episode).length = 1 :=
  iterate_batches_yield_size 1 [⟨[1], 0, 1, true⟩] [⟨1, [⟨[1], 0⟩]⟩]
    (by simp [genRun, genStep, genInit, EnvStep.toStep])

/-- The four-episode batch with rewards [0, 0, 1, 1] from the spec's fixed
scenario, with distinct steps so the training pairs identify their episode. -/
def demoBatch : List Episode :=
  [⟨0, [⟨[1, 0], 0⟩]⟩, ⟨0, [⟨[0, 1], 1⟩]⟩,
   ⟨1, [⟨[1, 1], 2⟩, ⟨[2, 2], 3⟩]⟩, ⟨1, [⟨[3, 3], 1⟩]⟩]

/-- C5: on the batch with rewards [0, 0, 1, 1] and percentile 70, the bound
is 1 and filter_batch retains exactly the two episodes with reward 1: the
returned training pairs come only from those episodes. -/
theorem filter_batch_rewards_0011 :
    (filter_batch demoBatch 70).reward_bound = 1
    ∧ retainedEpisodes demoBatch 70
        = [⟨1, [⟨[1, 1], 2⟩, ⟨[2, 2], 3⟩]⟩, ⟨1, [⟨[3, 3], 1⟩]⟩]
    ∧ (filter_batch demoBatch 70).train_obs = [[1, 1], [2, 2], [3, 3]]
    ∧ (filter_batch demoBatch 70).train_act = [2, 3, 1] := by
  refine ⟨?_, ?_, ?_, ?_⟩ <;>
    norm_num [filter_batch, retainedEpisodes, demoBatch, npPercentile, npMean,
      List.insertionSort, List.orderedInsert, Int.toNat, List.foldl,
      List.filter]

/-- C8: the training loop has terminated within the first k iterations
exactly when some batch among the first k has mean reward exceeding the
fixed threshold 0.8; as long as no batch's mean exceeds it, the loop is
still running after every number of iterations. -/
theorem train_loop_terminates_iff (batches : ℕ → List Episode) (k : ℕ) :
    trainLoopRunning batches k = false
      ↔ ∃ i < k, (4 : ℚ) / 5 < (filter_batch (batches i) PERCENTILE).reward_mean := by
  induction k with
  | zero => simp [trainLoopRunning]
  | succ k ih =>
    constructor
    · intro hfalse
      rw [trainLoopRunning] at hfalse
      rcases Bool.and_eq_false_iff.mp hfalse with h | h
      · obtain ⟨i, hik, hc⟩ := ih.mp h
        exact ⟨i, Nat.lt_succ_of_lt hik, hc⟩
      · refine ⟨k, Nat.lt_succ_self k, ?_⟩
        have h2 : (decide ((4 : ℚ) / 5
            < (filter_batch (batches k) PERCENTILE).reward_mean)) = true := by
          simpa using h
        exact of_decide_eq_true h2
    · rintro ⟨i, hik, hc⟩
      rw [trainLoopRunning]
      rcases Nat.lt_succ_iff_lt_or_eq.mp hik with h | h
      · rw [ih.mpr ⟨i, h, hc⟩]
        simp
      · subst h
        rw [decide_eq_true hc]
        simp

/-- C9: the episodes yielded by iterate_batches (followed by the batch under
construction) are exactly the Episodes of the maximal done-terminated
segments of the interaction stream, in order and each occurring once: each
yielded Episode's steps are the (observation, action) pairs of one full run
from reset up to and including the done record, its reward is the sum of the
rewards over those records, and no episode appears in more than one yielded
batch. -/
theorem iterate_batches_episode_runs (bs : ℕ) (recs : List EnvStep) :
    (genRun bs recs).yielded.flatten ++ (genRun bs recs).batch
        = ((segsAux [] recs).1).map episodeOfSeg
    ∧ ((segsAux [] recs).1).flatten ++ (segsAux [] recs).2 = recs
    ∧ (∀ g ∈ (segsAux [] recs).1,
        ∃ gp r, g = gp ++ [r] ∧ r.is_done = true ∧ ∀ x ∈ gp, x.is_done = false)
    ∧ ∀ x ∈ (segsAux [] recs).2, x.is_done = false := by
  refine ⟨?_, ?_, (segsAux_shape recs [] (by simp)).1,
    (segsAux_shape recs [] (by simp)).2⟩
  · have h := (genFoldl_segs bs recs genInit [] (by simp [genInit])
      (by simp [genInit])).1
    simpa [genRun, genInit] using h
  · simpa using segsAux_flatten recs []

/-- Witness for C9 on a concrete three-record stream with batch_size 2. -/
theorem iterate_batches_episode_runs_witness :
    (genRun 2 [(⟨[1], 2, 0, false⟩ : EnvStep), ⟨[2], 3, 1, true⟩,
        ⟨[3], 0, 1, true⟩]).yielded.flatten
      ++ (genRun 2 [(⟨[1], 2, 0, false⟩ : EnvStep), ⟨[2], 3, 1, true⟩,
        ⟨[3], 0, 1, true⟩]).batch
      = ((segsAux [] [(⟨[1], 2, 0, false⟩ : EnvStep), ⟨[2], 3, 1, true⟩,
        ⟨[3], 0, 1, true⟩]).1).map episodeOfSeg :=
  (iterate_batches_episode_runs 2 [⟨[1], 2, 0, false⟩, ⟨[2], 3, 1, true⟩,
    ⟨[3], 0, 1, true⟩]).1

/-- C10: every episode produced by iterate_batches has at least one step, and
for every non-empty batch of such episodes and percentile in [0, 100] the
reward_bound computed by filter_batch is at most the maximum episode reward,
so at least one episode is retained and the returned training tensors are
never empty: the unhandled empty-tensor edge case is unreachable. -/
theorem filter_batch_output_nonempty :
    (∀ (bs : ℕ) (recs : List EnvStep), ∀ b ∈ (genRun bs recs).yielded,
        ∀ e ∈ b, e.steps ≠ [])
    ∧ ∀ (batch : List Episode) (p : ℚ), batch ≠ [] → 0 ≤ p → p ≤ 100 →
        (∀ e ∈ batch, e.steps ≠ []) →
        ((filter_batch batch p).reward_bound : WithBot ℚ)
            ≤ (batch.map (fun e => e.reward)).maximum
        ∧ retainedEpisodes batch p ≠ []
        ∧ (filter_batch batch p).train_obs ≠ []
        ∧ (filter_batch batch p).train_act ≠ [] := by
  constructor
  · intro bs recs
    exact (genFoldl_steps_ne_nil bs recs genInit
      (by intro b hb; simp [genInit] at hb)
      (by intro e he; simp [genInit] at he)).1
  · intro batch p hne hp0 hp100 hsteps
    obtain ⟨m, hm, hle⟩ := npPercentile_le_mem (batch.map (fun e => e.reward)) p
      (by simpa using hne) hp0 hp100
    obtain ⟨e0, he0, he0r⟩ := List.mem_map.mp hm
    have hbound0 : npPercentile (batch.map (fun e => e.reward)) p ≤ e0.reward :=
      he0r ▸ hle
    have hret : e0 ∈ retainedEpisodes batch p := by
      unfold retainedEpisodes
      rw [List.mem_filter]
      exact ⟨he0, by simpa using hbound0⟩
    refine ⟨?_, ?_, ?_, ?_⟩
    · rw [filter_batch_eq]
      calc ((npPercentile (batch.map (fun e => e.reward)) p : ℚ) : WithBot ℚ)
          ≤ (m : WithBot ℚ) := WithBot.coe_le_coe.mpr hle
        _ ≤ _ := List.le_maximum_of_mem' hm
    · intro hnil
      rw [hnil] at hret
      exact absurd hret (List.not_mem_nil e0)
    · rw [filter_batch_eq]
      intro hflat
      have h1 : e0.steps.map (fun s => s.observation) = [] :=
        List.flatten_eq_nil_iff.mp hflat _ (List.mem_map_of_mem _ hret)
      exact hsteps e0 he0 (by simpa using h1)
    · rw [filter_batch_eq]
      intro hflat
      have h1 : e0.steps.map (fun s => s.action) = [] :=
        List.flatten_eq_nil_iff.mp hflat _ (List.mem_map_of_mem _ hret)
      exact hsteps e0 he0 (by simpa using h1)

/-- Witness for C10 on a one-episode batch with one step. -/
theorem filter_batch_output_nonempty_witness :
    retainedEpisodes [(⟨0, [⟨[1], 0⟩]⟩ : Episode)] 70 ≠ [] :=
  (filter_batch_output_nonempty.2 [⟨0, [⟨[1], 0⟩]⟩] 70 (by simp)
    (by norm_num) (by norm_num)
    (by intro e he; rw [List.mem_singleton.mp he]; simp)).2.1

end FrozenLake
